import Mathlib

/-!
Verification of the layered image-compositing core of the
LedStripDynamics repository (`src/lsd/strip.py`, `src/lsd/typing.py`).

Colors are numpy float arrays; we embed channel values as rationals,
pixels as triples of channels, images as lists of pixels.  Numpy
element-wise operations become `List.zipWith`-style functions, numpy
fancy indexing (negative wrap) is `npIdx`, Python `int()` on a float is
truncation toward zero (`ratTrunc`), Python `x % 1` on a float is
`Int.fract`, and `numpy.clip` is `rclip`.  Out-of-range list reads use a
default element; every theorem below restricts its indices so that the
default is never consulted (Python would raise an `IndexError` there).
-/

/-- One color channel of `lsd.typing.RGBColor`: an unclamped float. -/
abbrev Chan := ℚ

/-- An RGB color (`lsd.typing.RGBColor`): three float channels. -/
structure Pixel where
  r : Chan
  g : Chan
  b : Chan
deriving DecidableEq, Repr

/-- The color `lsd.colors.black`, the all-zero color that pads out-of-range reads. -/
def pxZero : Pixel := ⟨0, 0, 0⟩

/-- Scalar multiplication of a color, `color * a` in numpy. -/
def Pixel.scale (p : Pixel) (a : ℚ) : Pixel := ⟨p.r * a, p.g * a, p.b * a⟩

/-- Element-wise addition of two colors, `numpy.add`. -/
def Pixel.add (p q : Pixel) : Pixel := ⟨p.r + q.r, p.g + q.g, p.b + q.b⟩

/-- Constant `lsd.FLOAT_PRECISION = 1e-6`. -/
def floatPrecision : ℚ := 1 / 1000000

/-- Predicate `lsd.typing.is_black_color`: all channels below `FLOAT_PRECISION`
in absolute value. -/
def isBlackColor (p : Pixel) : Bool :=
  decide (|p.r| < floatPrecision ∧ |p.g| < floatPrecision ∧ |p.b| < floatPrecision)

/-- Python `int(x)` on a float: truncation toward zero. -/
def ratTrunc (x : ℚ) : ℤ := if 0 ≤ x then ⌊x⌋ else ⌈x⌉

/-- Function `numpy.clip(x, lo, hi)`. -/
def rclip (x lo hi : ℚ) : ℚ := min (max x lo) hi

/-- Numpy integer indexing: a negative index `i` with `-n ≤ i < n`
addresses element `n + i`. -/
def npIdx (n : ℕ) (i : ℤ) : ℕ := (if i < 0 then i + n else i).toNat

/-- Read of `buffer[i]` under numpy indexing (in-range reads only are
used by the theorems). -/
def getAt (buf : List Pixel) (i : ℤ) : Pixel :=
  buf.getD (npIdx buf.length i) pxZero

/-- Write of `buffer[i] = v` under numpy indexing. -/
def setAt (buf : List Pixel) (i : ℤ) (v : Pixel) : List Pixel :=
  buf.set (npIdx buf.length i) v

/-- Read of `opa[i]` under numpy indexing. -/
def getOpaAt (opa : List ℚ) (i : ℤ) : ℚ :=
  opa.getD (npIdx opa.length i) 0

/-- Write of `opa[i] = x` under numpy indexing. -/
def setOpaAt (opa : List ℚ) (i : ℤ) (x : ℚ) : List ℚ :=
  opa.set (npIdx opa.length i) x

/- ## Small list facts reused below -/

theorem list_getD_set_ne {α : Type} {i j : ℕ} (l : List α) (a d : α)
    (h : i ≠ j) : (l.set i a).getD j d = l.getD j d := by
  induction l generalizing i j with
  | nil => simp [List.set]
  | cons x xs ih =>
    cases i with
    | zero =>
      cases j with
      | zero => exact absurd rfl h
      | succ j => simp [List.set, List.getD]
    | succ i =>
      cases j with
      | zero => simp [List.set, List.getD]
      | succ j =>
        simp only [List.set, List.getD_cons_succ]
        exact ih (fun hij => h (by simp [hij]))

theorem list_getD_set_self {α : Type} {i : ℕ} (l : List α) (a d : α)
    (h : i < l.length) : (l.set i a).getD i d = a := by
  induction l generalizing i with
  | nil => simp at h
  | cons x xs ih =>
    cases i with
    | zero => simp [List.set, List.getD]
    | succ i =>
      simp only [List.set, List.getD_cons_succ]
      exact ih (by simpa using h)

/- ## Truncation and fractional-part facts -/

theorem ratTrunc_natCast_add (i : ℕ) (f : ℚ) (h0 : 0 ≤ f) (h1 : f < 1) :
    ratTrunc ((i : ℚ) + f) = (i : ℤ) := by
  have hx : (0 : ℚ) ≤ (i : ℚ) + f := add_nonneg (Nat.cast_nonneg i) h0
  have hfl : ⌊(i : ℚ) + f⌋ = (i : ℤ) := by
    rw [add_comm, Int.floor_add_nat, Int.floor_eq_zero_iff.mpr ⟨h0, h1⟩]
    ring
  simp [ratTrunc, hx, hfl]

theorem ratTrunc_intCast (m : ℤ) : ratTrunc (m : ℚ) = m := by
  rcases le_or_lt 0 (m : ℚ) with h | h
  · simp [ratTrunc, h]
  · simp [ratTrunc, not_le.mpr h]

theorem fract_natCast_add (i : ℕ) (f : ℚ) (h0 : 0 ≤ f) (h1 : f < 1) :
    Int.fract ((i : ℚ) + f) = f := by
  rw [add_comm, Int.fract_add_nat, Int.fract_eq_self.mpr ⟨h0, h1⟩]

/- ## Subpixel addressing (`Image.__getsubitem__`, `Image.__setsubitem__`) -/

/-- Embeds `Image.__getsubitem__(idx)`: linear interpolation between the two
pixels nearest to the fractional index `idx`.  Mirrors the source:
`_idx = clip(idx + (1 if idx >= 0 else -1), -n, n-1)`; if
`int(idx) == int(_idx) or int(idx) == idx` the pixel at `int(idx)` is
returned unmodified, else the weighted sum
`buffer[int(idx)] * abs(1 - idx % 1) + buffer[int(_idx)] * abs(idx % 1)`. -/
def getSubItem (buf : List Pixel) (idx : ℚ) : Pixel :=
  let n : ℕ := buf.length
  let idx2 : ℚ := rclip (idx + (if 0 ≤ idx then 1 else -1)) (-(n : ℚ)) ((n : ℚ) - 1)
  if ratTrunc idx = ratTrunc idx2 ∨ (ratTrunc idx : ℚ) = idx then
    getAt buf (ratTrunc idx)
  else
    ((getAt buf (ratTrunc idx)).scale |1 - Int.fract idx|).add
      ((getAt buf (ratTrunc idx2)).scale |Int.fract idx|)

/-- Mutable per-pixel state of an `Image`: the raw color buffer and the
opacity array (the source keeps them as two same-length numpy arrays). -/
structure PixData where
  buf : List Pixel
  opa : List ℚ
deriving DecidableEq, Repr

/-- Embeds `Image.__setsubitem__(idx, value)`.  Mirrors the source exactly:
the integral-index early return (`int_idx == idx`), the clipped
neighbor index, `pct_idx = abs(idx % 1)`, the auto-opacity-mode block
(black values only move opacity and return; black target pixels get the
color assigned and their opacity set before the blend), and the final
two blending writes `buffer[int_idx] = buffer[int_idx]*pct_idx +
value*pct_i_idx` and `buffer[int_i_idx] = buffer[int_i_idx]*pct_i_idx +
value*pct_idx`, executed sequentially. -/
def setSubItem (st : PixData) (autoOpaMode : Bool) (idx : ℚ) (v : Pixel) : PixData :=
  let n : ℕ := st.buf.length
  let intIdx : ℤ := ratTrunc idx
  if (intIdx : ℚ) = idx then
    { st with buf := setAt st.buf intIdx v }
  else
    let intI : ℤ :=
      ratTrunc (rclip (idx + (if 0 ≤ idx then 1 else -1)) (-(n : ℚ)) ((n : ℚ) - 1))
    let pct : ℚ := |Int.fract idx|
    let pctI : ℚ := 1 - pct
    if autoOpaMode && isBlackColor v then
      { st with opa := setOpaAt (setOpaAt st.opa intIdx pct) intI pctI }
    else
      let st1 : PixData :=
        if autoOpaMode && isBlackColor (getAt st.buf intIdx) then
          { buf := setAt st.buf intIdx v, opa := setOpaAt st.opa intIdx pctI }
        else st
      let st2 : PixData :=
        if autoOpaMode && isBlackColor (getAt st1.buf intI) then
          { buf := setAt st1.buf intI v, opa := setOpaAt st1.opa intI pct }
        else st1
      let buf1 := setAt st2.buf intIdx (((getAt st2.buf intIdx).scale pct).add (v.scale pctI))
      let buf2 := setAt buf1 intI (((getAt buf1 intI).scale pctI).add (v.scale pct))
      { st2 with buf := buf2 }

/- ## Index arithmetic used by both subpixel operations -/

theorem ratTrunc_natCast (k : ℕ) : ratTrunc (k : ℚ) = (k : ℤ) := by
  have h := ratTrunc_intCast (k : ℤ)
  rwa [Int.cast_natCast] at h

theorem trunc_clip_next (n i : ℕ) (f : ℚ) (h0 : 0 ≤ f) (h1 : f < 1)
    (hi : i + 1 < n) :
    ratTrunc (rclip ((i : ℚ) + f + 1) (-(n : ℚ)) ((n : ℚ) - 1)) = (i : ℤ) + 1 := by
  have hx0 : (0 : ℚ) ≤ (i : ℚ) + f + 1 := by positivity
  have hmax : max ((i : ℚ) + f + 1) (-(n : ℚ)) = (i : ℚ) + f + 1 := by
    apply max_eq_left
    have : (0 : ℚ) ≤ (n : ℚ) := Nat.cast_nonneg n
    linarith
  have hle : (i : ℚ) + 1 ≤ (n : ℚ) - 1 := by
    have : ((i : ℚ) + 2) ≤ (n : ℚ) := by
      have : (i + 2 : ℕ) ≤ n := hi
      exact_mod_cast this
    linarith
  rw [rclip, hmax]
  rcases le_or_lt ((i : ℚ) + f + 1) ((n : ℚ) - 1) with hc | hc
  · rw [min_eq_left hc]
    have : (i : ℚ) + f + 1 = ((i + 1 : ℕ) : ℚ) + f := by push_cast; ring
    rw [this, ratTrunc_natCast_add (i + 1) f h0 h1]
    push_cast
    ring
  · rw [min_eq_right (le_of_lt hc)]
    have hn1 : (1 : ℕ) ≤ n := by omega
    have hcast : (n : ℚ) - 1 = ((n - 1 : ℕ) : ℚ) := by
      push_cast [hn1]
      ring
    have hlt2 : ((n - 1 : ℕ) : ℚ) < ((i + 2 : ℕ) : ℚ) := by
      rw [← hcast]
      push_cast
      linarith
    have hge : ((i + 1 : ℕ) : ℚ) ≤ ((n - 1 : ℕ) : ℚ) := by
      rw [← hcast]
      push_cast
      linarith
    have heq : (n - 1 : ℕ) = i + 1 := by
      have h2 : (n - 1 : ℕ) < i + 2 := by exact_mod_cast hlt2
      have h3 : (i + 1 : ℕ) ≤ n - 1 := by exact_mod_cast hge
      omega
    rw [hcast, heq, ratTrunc_natCast]
    push_cast
    ring

theorem npIdx_natCast (m k : ℕ) : npIdx m (k : ℤ) = k := by
  simp only [npIdx]
  rw [if_neg (by omega)]
  omega

theorem getAt_natCast (buf : List Pixel) (k : ℕ) :
    getAt buf (k : ℤ) = buf.getD k pxZero := by
  rw [getAt, npIdx_natCast]

/-- C5: integer reads return the stored pixel exactly; `get(i + 0.5)`
is the unweighted average of pixels `i` and `i+1`, or the clamped
boundary pixel `buffer[n-1]` when `i` is the last index; a float index
with fractional part exactly `0` returns `buffer[lo]` unmodified. -/
theorem getSubItem_spec (buf : List Pixel) :
    (∀ k : ℕ, k < buf.length → getAt buf (k : ℤ) = buf.getD k pxZero)
    ∧ (∀ i : ℕ, i + 1 < buf.length →
        getSubItem buf ((i : ℚ) + 1/2)
          = ((buf.getD i pxZero).scale (1/2)).add
              ((buf.getD (i + 1) pxZero).scale (1/2)))
    ∧ (∀ i : ℕ, i + 1 = buf.length →
        getSubItem buf ((i : ℚ) + 1/2) = buf.getD i pxZero)
    ∧ (∀ idx : ℚ, Int.fract idx = 0 → 0 ≤ idx → idx < (buf.length : ℚ) →
        getSubItem buf idx = buf.getD ⌊idx⌋.toNat pxZero) := by
  have h0 : (0 : ℚ) ≤ 1/2 := by norm_num
  have h1 : (1 : ℚ)/2 < 1 := by norm_num
  refine ⟨fun k _ => getAt_natCast buf k, fun i hi => ?_, fun i hi => ?_, fun idx hfr h0' _hlt => ?_⟩
  · -- interior half-index: unweighted average
    have htr : ratTrunc ((i : ℚ) + 1/2) = (i : ℤ) := ratTrunc_natCast_add i (1/2) h0 h1
    have hge : (0 : ℚ) ≤ (i : ℚ) + 1/2 := by positivity
    have htr2 : ratTrunc (rclip ((i : ℚ) + 1/2 + 1) (-(buf.length : ℚ))
        ((buf.length : ℚ) - 1)) = (i : ℤ) + 1 :=
      trunc_clip_next buf.length i (1/2) h0 h1 hi
    have hfr : Int.fract ((i : ℚ) + 1/2) = 1/2 := fract_natCast_add i (1/2) h0 h1
    simp only [getSubItem, if_pos hge, htr, htr2, hfr]
    rw [if_neg]
    · have hcast : ((i : ℤ) + 1 : ℤ) = ((i + 1 : ℕ) : ℤ) := by push_cast; ring
      have habs : |(1 : ℚ)/2| = (1 : ℚ)/2 := abs_of_nonneg h0
      rw [hcast, getAt_natCast, getAt_natCast,
        show (1 - (1 : ℚ)/2) = 1/2 by norm_num, habs]
    · push_neg
      constructor
      · omega
      · intro hq
        rw [Int.cast_natCast] at hq
        have : (0 : ℚ) = 1/2 := by linarith
        norm_num at this
  · -- boundary half-index: clamped to the last pixel
    have htr : ratTrunc ((i : ℚ) + 1/2) = (i : ℤ) := ratTrunc_natCast_add i (1/2) h0 h1
    have hge : (0 : ℚ) ≤ (i : ℚ) + 1/2 := by positivity
    have hn : (buf.length : ℚ) - 1 = (i : ℚ) := by
      rw [← hi]
      push_cast
      ring
    have hclip : rclip ((i : ℚ) + 1/2 + 1) (-(buf.length : ℚ)) ((buf.length : ℚ) - 1)
        = (i : ℚ) := by
      rw [rclip, hn, max_eq_left (by
        have : (0 : ℚ) ≤ (buf.length : ℚ) := Nat.cast_nonneg _
        rw [← hi]; push_cast; linarith), min_eq_right (by linarith)]
    simp only [getSubItem, if_pos hge, hclip, htr, ratTrunc_natCast]
    rw [if_pos (Or.inl trivial), getAt_natCast]
  · -- integral-valued float index: exact read, no interpolation
    have hfl : ((⌊idx⌋ : ℤ) : ℚ) = idx := by
      have h2 := Int.floor_add_fract idx
      rw [hfr] at h2
      linarith
    have htr : ratTrunc idx = ⌊idx⌋ := by simp [ratTrunc, h0']
    have hpos : 0 ≤ ⌊idx⌋ := Int.le_floor.mpr (by exact_mod_cast h0')
    simp only [getSubItem, htr]
    rw [if_pos (Or.inr hfl)]
    rw [getAt, npIdx]
    rw [if_neg (by omega)]

/-- Witness for C5 at a concrete buffer: `get(0.5)` on
`[(1,2,3), (5,6,7)]` is `(3,4,5)`, and `get(1.0)` is `(5,6,7)`. -/
theorem getSubItem_spec_witness :
    getSubItem [⟨1,2,3⟩, ⟨5,6,7⟩] (((0 : ℕ) : ℚ) + 1/2) = ⟨3, 4, 5⟩
    ∧ getSubItem [⟨1,2,3⟩, ⟨5,6,7⟩] (((1 : ℤ) : ℚ)) = ⟨5, 6, 7⟩ := by
  constructor
  · have h := (getSubItem_spec [⟨1,2,3⟩, ⟨5,6,7⟩]).2.1 0 (by norm_num)
    rw [h]
    norm_num [Pixel.scale, Pixel.add, List.getD]
  · have h := (getSubItem_spec [⟨1,2,3⟩, ⟨5,6,7⟩]).2.2.2 ((1 : ℤ) : ℚ)
      (Int.fract_intCast 1) (by norm_num) (by norm_num)
    rw [h, Int.floor_intCast]
    norm_num [List.getD]

/- ## Fractional writes (`Image.__setsubitem__` with auto-opacity off) -/

theorem setSubItem_frac_eval (st : PixData) (v : Pixel) (i : ℕ) (f : ℚ)
    (hf0 : 0 < f) (hf1 : f < 1) (hi : i + 1 < st.buf.length) :
    setSubItem st false ((i : ℚ) + f) v =
      ⟨List.set (st.buf.set i (((st.buf.getD i pxZero).scale f).add (v.scale (1 - f))))
          (i + 1) (((st.buf.getD (i + 1) pxZero).scale (1 - f)).add (v.scale f)),
        st.opa⟩ := by
  have h0 : (0 : ℚ) ≤ f := le_of_lt hf0
  have htr : ratTrunc ((i : ℚ) + f) = (i : ℤ) := ratTrunc_natCast_add i f h0 hf1
  have hge : (0 : ℚ) ≤ (i : ℚ) + f := by positivity
  have hfr : Int.fract ((i : ℚ) + f) = f := fract_natCast_add i f h0 hf1
  have htr2 := trunc_clip_next st.buf.length i f h0 hf1 hi
  have hne : ¬ (((i : ℤ) : ℚ) = (i : ℚ) + f) := by
    push_cast
    intro h
    linarith
  have hcast : ((i : ℤ) + 1 : ℤ) = ((i + 1 : ℕ) : ℤ) := by push_cast; ring
  simp only [setSubItem, htr, hfr, if_pos hge, htr2, abs_of_nonneg h0, Bool.false_and,
    Bool.false_eq_true, if_false, hcast]
  rw [if_neg hne]
  have e1 : setAt st.buf ((i : ℕ) : ℤ)
      (((getAt st.buf ((i : ℕ) : ℤ)).scale f).add (v.scale (1 - f)))
      = st.buf.set i (((st.buf.getD i pxZero).scale f).add (v.scale (1 - f))) := by
    rw [setAt, npIdx_natCast, getAt_natCast]
  rw [e1]
  have eg2 : getAt (st.buf.set i (((st.buf.getD i pxZero).scale f).add (v.scale (1 - f))))
      ((i + 1 : ℕ) : ℤ) = st.buf.getD (i + 1) pxZero := by
    rw [getAt_natCast]
    exact list_getD_set_ne _ _ _ (by omega)
  rw [eg2, setAt, List.length_set, npIdx_natCast]

theorem setSubItem_edge_eval (st : PixData) (v : Pixel) (m : ℕ) (f : ℚ)
    (hf0 : 0 < f) (hf1 : f < 1) (hlen : st.buf.length = m + 1) :
    setSubItem st false ((m : ℚ) + f) v =
      ⟨st.buf.set m
          (((((st.buf.getD m pxZero).scale f).add (v.scale (1 - f))).scale (1 - f)).add
            (v.scale f)),
        st.opa⟩ := by
  have h0 : (0 : ℚ) ≤ f := le_of_lt hf0
  have htr : ratTrunc ((m : ℚ) + f) = (m : ℤ) := ratTrunc_natCast_add m f h0 hf1
  have hge : (0 : ℚ) ≤ (m : ℚ) + f := by positivity
  have hfr : Int.fract ((m : ℚ) + f) = f := fract_natCast_add m f h0 hf1
  have hne : ¬ (((m : ℤ) : ℚ) = (m : ℚ) + f) := by
    push_cast
    intro h
    linarith
  have hclip : rclip ((m : ℚ) + f + 1) (-(st.buf.length : ℚ)) ((st.buf.length : ℚ) - 1)
      = ((m : ℕ) : ℚ) := by
    have hq : (st.buf.length : ℚ) = (m : ℚ) + 1 := by rw [hlen]; push_cast; ring
    rw [rclip, hq, max_eq_left (by linarith), min_eq_right (by linarith)]
    ring
  have htr2 : ratTrunc (rclip ((m : ℚ) + f + 1) (-(st.buf.length : ℚ))
      ((st.buf.length : ℚ) - 1)) = ((m : ℕ) : ℤ) := by
    rw [hclip, ratTrunc_natCast]
  simp only [setSubItem, htr, hfr, if_pos hge, htr2, abs_of_nonneg h0, Bool.false_and,
    Bool.false_eq_true, if_false]
  rw [if_neg hne]
  have e1 : setAt st.buf ((m : ℕ) : ℤ)
      (((getAt st.buf ((m : ℕ) : ℤ)).scale f).add (v.scale (1 - f)))
      = st.buf.set m (((st.buf.getD m pxZero).scale f).add (v.scale (1 - f))) := by
    rw [setAt, npIdx_natCast, getAt_natCast]
  rw [e1]
  have eg2 : getAt (st.buf.set m (((st.buf.getD m pxZero).scale f).add (v.scale (1 - f))))
      ((m : ℕ) : ℤ) = ((st.buf.getD m pxZero).scale f).add (v.scale (1 - f)) := by
    rw [getAt_natCast]
    exact list_getD_set_self _ _ _ (by omega)
  rw [eg2, setAt, List.length_set, npIdx_natCast, List.set_set]

theorem blend_eq_self (p v : Pixel) (f : ℚ) (hf : f ≠ 0)
    (h : (p.scale f).add (v.scale (1 - f)) = v) : p = v := by
  obtain ⟨pr, pg, pb⟩ := p
  obtain ⟨vr, vg, vb⟩ := v
  simp only [Pixel.scale, Pixel.add, Pixel.mk.injEq] at h ⊢
  obtain ⟨h1, h2, h3⟩ := h
  refine ⟨mul_right_cancel₀ hf (by linarith), mul_right_cancel₀ hf (by linarith),
    mul_right_cancel₀ hf (by linarith)⟩

/-- C4: with auto-opacity mode disabled and a nonnegative in-range
fractional index `i + f`, `0 < f < 1`, the write blends into both
neighbors — `buffer[lo] = buffer[lo]*f + v*(1-f)` and `buffer[hi] =
buffer[hi]*(1-f) + v*f` with `hi = lo+1` — leaving the opacity and all
other pixels unchanged; the blend never equals a pure overwrite at `lo`
unless the old pixel already was `v`; an exactly-integral index is a
pure overwrite; at the last index `hi` clamps to `lo` and the two blend
writes land sequentially on that one pixel. -/
theorem setSubItem_frac_spec (st : PixData) (v : Pixel) (i : ℕ) (f : ℚ)
    (hf0 : 0 < f) (hf1 : f < 1) (hi : i + 1 < st.buf.length) :
    ((setSubItem st false ((i : ℚ) + f) v).opa = st.opa)
    ∧ (setSubItem st false ((i : ℚ) + f) v).buf.getD i pxZero
        = ((st.buf.getD i pxZero).scale f).add (v.scale (1 - f))
    ∧ (setSubItem st false ((i : ℚ) + f) v).buf.getD (i + 1) pxZero
        = ((st.buf.getD (i + 1) pxZero).scale (1 - f)).add (v.scale f)
    ∧ (∀ j : ℕ, j ≠ i → j ≠ i + 1 →
        (setSubItem st false ((i : ℚ) + f) v).buf.getD j pxZero = st.buf.getD j pxZero)
    ∧ (st.buf.getD i pxZero ≠ v →
        (setSubItem st false ((i : ℚ) + f) v).buf.getD i pxZero ≠ v)
    ∧ (∀ k : ℕ, k < st.buf.length →
        setSubItem st false ((k : ℕ) : ℚ) v = ⟨st.buf.set k v, st.opa⟩)
    ∧ (∀ (st2 : PixData) (m : ℕ), st2.buf.length = m + 1 →
        (setSubItem st2 false ((m : ℚ) + f) v).buf.getD m pxZero
          = ((((st2.buf.getD m pxZero).scale f).add (v.scale (1 - f))).scale (1 - f)).add
              (v.scale f)) := by
  have heval := setSubItem_frac_eval st v i f hf0 hf1 hi
  have hlo : (setSubItem st false ((i : ℚ) + f) v).buf.getD i pxZero
      = ((st.buf.getD i pxZero).scale f).add (v.scale (1 - f)) := by
    rw [heval]
    show (List.set _ (i + 1) _).getD i pxZero = _
    rw [list_getD_set_ne _ _ _ (by omega), list_getD_set_self _ _ _ (by omega)]
  refine ⟨?_, hlo, ?_, ?_, ?_, ?_, ?_⟩
  · rw [heval]
  · rw [heval]
    show (List.set _ (i + 1) _).getD (i + 1) pxZero = _
    rw [list_getD_set_self _ _ _ (by simp; omega)]
  · intro j hj1 hj2
    rw [heval]
    show (List.set _ (i + 1) _).getD j pxZero = _
    rw [list_getD_set_ne _ _ _ (by omega), list_getD_set_ne _ _ _ (by omega)]
  · intro hneq hcontra
    rw [hlo] at hcontra
    exact hneq (blend_eq_self _ _ _ (ne_of_gt hf0) hcontra)
  · intro k _hk
    have htr : ratTrunc ((k : ℚ)) = (k : ℤ) := ratTrunc_natCast k
    simp only [setSubItem, htr]
    rw [if_pos (by rw [Int.cast_natCast]), setAt, npIdx_natCast]
  · intro st2 m hlen
    rw [setSubItem_edge_eval st2 v m f hf0 hf1 hlen]
    show (List.set _ m _).getD m pxZero = _
    rw [list_getD_set_self _ _ _ (by omega)]

/-- Witness for C4: writing `(100,100,100)` at index `0.5` of the
two-pixel buffer `[(10,10,10), (20,20,20)]` with full opacities. -/
theorem setSubItem_frac_spec_witness :
    (setSubItem ⟨[⟨10,10,10⟩, ⟨20,20,20⟩], [1, 1]⟩ false (((0 : ℕ) : ℚ) + 1/2)
        ⟨100,100,100⟩).buf.getD 0 pxZero = ⟨55, 55, 55⟩
    ∧ (setSubItem ⟨[⟨10,10,10⟩, ⟨20,20,20⟩], [1, 1]⟩ false (((0 : ℕ) : ℚ) + 1/2)
        ⟨100,100,100⟩).buf.getD 1 pxZero = ⟨60, 60, 60⟩ := by
  have h := setSubItem_frac_spec ⟨[⟨10,10,10⟩, ⟨20,20,20⟩], [1, 1]⟩ ⟨100,100,100⟩ 0 (1/2)
    (by norm_num) (by norm_num) (by norm_num)
  refine ⟨?_, ?_⟩
  · rw [h.2.1]
    norm_num [Pixel.scale, Pixel.add, List.getD]
  · rw [show (1 : ℕ) = 0 + 1 from rfl, h.2.2.1]
    norm_num [Pixel.scale, Pixel.add, List.getD]

/- ## Modifiers, auto-opacity and the composite (`Image.composite`) -/

/-- A modifier: a callable from a color sequence to a color sequence.
`none` models the callable raising an exception, which `composite`
catches, logs and skips. -/
def Modifier : Type := List Pixel → Option (List Pixel)

/-- The modifier loop of `Image.composite`: each modifier is applied in
list order; on failure the pre-modifier result of that step is kept. -/
def applyMods (mods : List Modifier) (img : List Pixel) : List Pixel :=
  mods.foldl (fun acc m => match m acc with | some r => r | none => acc) img

/-- Python `list.insert(idx, x)` of Python: a negative `idx` counts from the
end (clamped at 0), a nonnegative `idx` is clamped at the length. -/
def pyInsert {α : Type} (l : List α) (idx : ℤ) (x : α) : List α :=
  let pos : ℕ := if idx < 0 then (max (l.length + idx) 0).toNat else min idx.toNat l.length
  l.take pos ++ x :: l.drop pos

/-- Embeds `Image.add_modifier(modifier, idx)` for a single callable:
`self._modifiers.insert(idx, modifier)`. -/
def addModifier (mods : List Modifier) (modifier : Modifier) (idx : ℤ) : List Modifier :=
  pyInsert mods idx modifier

/-- Embeds `Image.add_modifier(modifier)` with the default position `idx = -1`. -/
def addModifierDefault (mods : List Modifier) (modifier : Modifier) : List Modifier :=
  addModifier mods modifier (-1)

/-- One pixel of `Image.auto_opa()`: the source computes
`to_1_mask = (abs(self) > FLOAT_PRECISION).any(axis=1) & (self.opa < FLOAT_PRECISION)`
and `to_0_mask = (abs(self) < FLOAT_PRECISION).all(axis=1)` from the
current colors and opacities, then assigns `opa[to_1_mask] = 1` followed
by `opa[to_0_mask] = 0`. -/
def autoOpaPixel (p : Pixel) (o : ℚ) : ℚ :=
  let to1 : Bool := decide ((floatPrecision < |p.r| ∨ floatPrecision < |p.g| ∨
    floatPrecision < |p.b|) ∧ o < floatPrecision)
  let to0 : Bool := isBlackColor p
  let afterTo1 := if to1 then 1 else o
  if to0 then 0 else afterTo1

/-- Embeds `Image.auto_opa()` over the whole buffer. -/
def autoOpaList (buf : List Pixel) (opa : List ℚ) : List ℚ :=
  List.zipWith autoOpaPixel buf opa

/-- The blending step of `Image.composite`:
`real_img = self[:] * opa.reshape(n,1) + bg_img * (1 - opa.reshape(n,1))`
element-wise. -/
def blendList : List Pixel → List ℚ → List Pixel → List Pixel
  | p :: ps, a :: as_, b :: bs =>
      ((p.scale a).add (b.scale (1 - a))) :: blendList ps as_ bs
  | _, _, _ => []

/-- A layered image (`Image`): raw buffer, opacity, background (either
another `Image` or a static color array — the two constructors mirror
the `Union['Image', ndarray]` type of `Image._bg`), modifier list and
auto-opacity flag. -/
inductive ImageT : Type where
  | base : List Pixel → List ℚ → List Pixel → List Modifier → Bool → ImageT
  | layer : List Pixel → List ℚ → ImageT → List Modifier → Bool → ImageT

/-- Raw buffer (`Image.raw_img`). -/
def ImageT.buffer : ImageT → List Pixel
  | .base buf _ _ _ _ => buf
  | .layer buf _ _ _ _ => buf

/-- Opacity array (`Image.opa`). -/
def ImageT.opa : ImageT → List ℚ
  | .base _ opa _ _ _ => opa
  | .layer _ opa _ _ _ => opa

/-- Modifier list (`Image._modifiers`). -/
def ImageT.mods : ImageT → List Modifier
  | .base _ _ _ m _ => m
  | .layer _ _ _ m _ => m

/-- Auto-opacity flag (`Image._auto_opa_mode`). -/
def ImageT.autoOpa : ImageT → Bool
  | .base _ _ _ _ a => a
  | .layer _ _ _ _ a => a

/-- Embeds `Image.composite`: with auto-opacity mode on, `auto_opa()` first
adjusts the opacities; `bg_img` is the background's own recursively
computed composite when the background is an `Image`, else the static
array; the result blends buffer over `bg_img` and then runs the
modifier pipeline. -/
def ImageT.compositeVal : ImageT → List Pixel
  | .base buf opa bgArr mods auto =>
      applyMods mods (blendList buf (if auto then autoOpaList buf opa else opa) bgArr)
  | .layer buf opa bg mods auto =>
      applyMods mods
        (blendList buf (if auto then autoOpaList buf opa else opa) bg.compositeVal)

/-- The `bg_img` term of `Image.composite`: `self.bg.composite` if the
background is an `Image`, else the static background array itself. -/
def ImageT.bgVal : ImageT → List Pixel
  | .base _ _ bgArr _ _ => bgArr
  | .layer _ _ bg _ _ => bg.compositeVal

theorem blendList_getD (ps : List Pixel) (as_ : List ℚ) (bs : List Pixel) (i : ℕ)
    (hi : i < ps.length) (h1 : as_.length = ps.length) (h2 : bs.length = ps.length) :
    (blendList ps as_ bs).getD i pxZero
      = ((ps.getD i pxZero).scale (as_.getD i 0)).add
          ((bs.getD i pxZero).scale (1 - as_.getD i 0)) := by
  induction ps generalizing as_ bs i with
  | nil => simp at hi
  | cons p ps ih =>
    cases as_ with
    | nil => simp at h1
    | cons a as2 =>
      cases bs with
      | nil => simp at h2
      | cons b bs2 =>
        cases i with
        | zero => simp [blendList, List.getD]
        | succ i =>
          simp only [blendList, List.getD_cons_succ]
          exact ih as2 bs2 i (by simpa using hi) (by simpa using h1) (by simpa using h2)

theorem blendList_ones (ps bs : List Pixel) (h2 : bs.length = ps.length) :
    blendList ps (List.replicate ps.length 1) bs = ps := by
  induction ps generalizing bs with
  | nil => rfl
  | cons p ps ih =>
    cases bs with
    | nil => simp at h2
    | cons b bs2 =>
      simp only [List.length_cons, List.replicate_succ, blendList]
      rw [ih bs2 (by simpa using h2)]
      obtain ⟨pr, pg, pb⟩ := p
      obtain ⟨br, bg', bb⟩ := b
      simp [Pixel.scale, Pixel.add]

theorem blendList_zeros (ps bs : List Pixel) (h2 : bs.length = ps.length) :
    blendList ps (List.replicate ps.length 0) bs = bs := by
  induction ps generalizing bs with
  | nil =>
    have : bs = [] := List.length_eq_zero.mp h2
    rw [this]
    rfl
  | cons p ps ih =>
    cases bs with
    | nil => simp at h2
    | cons b bs2 =>
      simp only [List.length_cons, List.replicate_succ, blendList]
      rw [ih bs2 (by simpa using h2)]
      obtain ⟨pr, pg, pb⟩ := p
      obtain ⟨br, bg', bb⟩ := b
      simp [Pixel.scale, Pixel.add]

/-- C3: with auto-opacity disabled and no modifiers, the composite is
the pointwise blend `buffer[i]*opacity[i] + bg[i]*(1 - opacity[i])`
where `bg` is the background's own composite (recursively, when the
background is an `Image`) or the static array; with opacity all `1` it
equals the raw buffer regardless of background content, and with
opacity all `0` it equals the background's composite. -/
theorem composite_spec (nd : ImageT) (hm : nd.mods = []) (ha : nd.autoOpa = false)
    (hlo : nd.opa.length = nd.buffer.length) (hlb : nd.bgVal.length = nd.buffer.length) :
    nd.compositeVal = blendList nd.buffer nd.opa nd.bgVal
    ∧ (∀ i : ℕ, i < nd.buffer.length →
        nd.compositeVal.getD i pxZero
          = ((nd.buffer.getD i pxZero).scale (nd.opa.getD i 0)).add
              ((nd.bgVal.getD i pxZero).scale (1 - nd.opa.getD i 0)))
    ∧ (nd.opa = List.replicate nd.buffer.length 1 → nd.compositeVal = nd.buffer)
    ∧ (nd.opa = List.replicate nd.buffer.length 0 → nd.compositeVal = nd.bgVal) := by
  have h1 : nd.compositeVal = blendList nd.buffer nd.opa nd.bgVal := by
    cases nd with
    | base buf opa bgArr mods auto =>
      simp only [ImageT.mods] at hm
      simp only [ImageT.autoOpa] at ha
      subst hm
      subst ha
      simp [ImageT.compositeVal, applyMods, ImageT.buffer, ImageT.opa, ImageT.bgVal]
    | layer buf opa bg mods auto =>
      simp only [ImageT.mods] at hm
      simp only [ImageT.autoOpa] at ha
      subst hm
      subst ha
      simp [ImageT.compositeVal, applyMods, ImageT.buffer, ImageT.opa, ImageT.bgVal]
  refine ⟨h1, ?_, ?_, ?_⟩
  · intro i hi
    rw [h1]
    exact blendList_getD nd.buffer nd.opa nd.bgVal i hi hlo hlb
  · intro hop
    rw [h1, hop]
    exact blendList_ones nd.buffer nd.bgVal hlb
  · intro hop
    rw [h1, hop]
    exact blendList_zeros nd.buffer nd.bgVal hlb

/-- Witness for C3 on a two-layer stack with concrete numbers. -/
theorem composite_spec_witness :
    (ImageT.layer [⟨10,0,0⟩, ⟨0,20,0⟩] [1/2, 1/4]
        (.base [⟨100,100,100⟩, ⟨8,8,8⟩] [1, 1] [pxZero, pxZero] [] false)
        [] false).compositeVal
      = [⟨55,50,50⟩, ⟨6,11,6⟩] := by
  have h := composite_spec
    (ImageT.layer [⟨10,0,0⟩, ⟨0,20,0⟩] [1/2, 1/4]
      (.base [⟨100,100,100⟩, ⟨8,8,8⟩] [1, 1] [pxZero, pxZero] [] false) [] false)
    rfl rfl rfl rfl
  rw [h.1]
  norm_num [ImageT.buffer, ImageT.opa, ImageT.bgVal, ImageT.compositeVal, applyMods,
    blendList, Pixel.scale, Pixel.add, pxZero]

/-- C6: evaluating `Image.auto_opa()` at the example of its own
docstring, `Image([black, red, black, red, black], opa=[1, 1, 0, 0, 0.8])`.
The docstring promises the result `[0, 1, 0, 1, 0.8]` — the mid-range
opacity `0.8` of the last (black) pixel kept — but `to_0_mask` ignores
the current opacity, so the code produces `[0, 1, 0, 1, 0]`. -/
theorem auto_opa_blackout_bug :
    autoOpaList [pxZero, ⟨255,0,0⟩, pxZero, ⟨255,0,0⟩, pxZero] [1, 1, 0, 0, 4/5]
      = [0, 1, 0, 1, 0]
    ∧ (autoOpaList [pxZero, ⟨255,0,0⟩, pxZero, ⟨255,0,0⟩, pxZero]
        [1, 1, 0, 0, 4/5]).getD 4 0 ≠ 4/5 := by
  have h : autoOpaList [pxZero, ⟨255,0,0⟩, pxZero, ⟨255,0,0⟩, pxZero] [1, 1, 0, 0, 4/5]
      = [0, 1, 0, 1, 0] := by
    norm_num [autoOpaList, autoOpaPixel, isBlackColor, floatPrecision, pxZero, abs_of_nonneg]
  refine ⟨h, ?_⟩
  rw [h]
  norm_num [List.getD]

/- ## The quantization step of `Strip.show` -/

/-- numpy `astype('uint8')` on a float channel: truncation toward zero
followed by wrap-around modulo 256 (the conversion numpy performs in
`clip(img.composite.astype('uint8'), 0, 255)` — note the conversion
happens before the clip). -/
def astypeUint8 (x : ℚ) : ℤ := ratTrunc x % 256

/-- Function `numpy.clip` on an integer channel. -/
def clipInt (x lo hi : ℤ) : ℤ := min (max x lo) hi

/-- One channel of the frame computed by `Strip.show`:
`clip(img.composite.astype('uint8'), 0, 255)`. -/
def showChannel (x : ℚ) : ℤ := clipInt (astypeUint8 x) 0 255

/-- One channel of the frame as the spec (and the docstrings of `Image`
and `Strip._displayed`) describe it: the composite value truncated to
integer precision and clipped to the displayable range `0..255`. -/
def specShowChannel (x : ℚ) : ℤ := clipInt (ratTrunc x) 0 255

/-- The frame `Strip.show` writes to the driver and stores in
`Strip._displayed`. -/
def showFrame (img : List Pixel) : List (ℤ × ℤ × ℤ) :=
  img.map fun p => (showChannel p.r, showChannel p.g, showChannel p.b)

/-- C1: on the out-of-range composite pixel `(300, -5, 100)` the frame
computed by `Strip.show` is `(44, 251, 100)` — the `astype('uint8')`
runs before the `clip`, so out-of-range channels wrap modulo 256 —
while the claimed (and internally documented) clamping semantics gives
`(255, 0, 100)`. -/
theorem show_wraps_instead_of_clamping :
    showFrame [⟨300, -5, 100⟩] = [(44, 251, 100)]
    ∧ specShowChannel 300 = 255 ∧ specShowChannel (-5) = 0
    ∧ showChannel 300 ≠ specShowChannel 300 := by
  have h300 : ratTrunc (300 : ℚ) = 300 := by
    rw [show (300 : ℚ) = ((300 : ℤ) : ℚ) by norm_num, ratTrunc_intCast]
  have hm5 : ratTrunc (-5 : ℚ) = -5 := by
    rw [show (-5 : ℚ) = ((-5 : ℤ) : ℚ) by norm_num, ratTrunc_intCast]
  have h100 : ratTrunc (100 : ℚ) = 100 := by
    rw [show (100 : ℚ) = ((100 : ℤ) : ℚ) by norm_num, ratTrunc_intCast]
  refine ⟨?_, ?_, ?_, ?_⟩ <;>
    simp [showFrame, showChannel, specShowChannel, astypeUint8, clipInt, h300, hm5, h100]

/- ## Modifier pipeline ordering (`Image.add_modifier`) -/

/-- A modifier that doubles every channel (used as a distinguishable
pipeline element). -/
def modDouble : Modifier := fun l => some (l.map fun p => p.scale 2)

/-- The identity modifier. -/
def modId : Modifier := fun l => some l

/-- C7 counterexample: adding a modifier with the default position to a
pipeline that already holds one modifier puts the new modifier *first*,
not last: `[m0].insert(-1, m1)` gives `[m1, m0]`, so the claimed result
`[m0, m1]` is wrong. -/
theorem addModifier_default_not_end :
    addModifierDefault [modDouble] modId = [modId, modDouble]
    ∧ addModifierDefault [modDouble] modId ≠ [modDouble, modId] := by
  refine ⟨rfl, ?_⟩
  intro h
  have heval : ([modId, modDouble] : List Modifier) = [modDouble, modId] := h
  have h1 : modId = modDouble := by
    simpa using congrArg (fun l => List.getD l 0 modId) heval
  have h2 : modId [⟨1,1,1⟩] = modDouble [⟨1,1,1⟩] := by rw [h1]
  simp only [modId, modDouble, List.map, Pixel.scale, Option.some.injEq] at h2
  have h3 := congrArg (fun l => (List.getD l 0 pxZero).r) h2
  norm_num [List.getD] at h3

/-- C7 amended: `add_modifier` with the default position `-1` inserts
the new modifier *before* the last element of the pipeline (Python
`list.insert(-1, x)`): on an empty pipeline it becomes the sole
modifier, and on a pipeline `l ++ [x]` it lands between `l` and `x`,
leaving the previously-last modifier applied last. -/
theorem addModifier_default_before_last (m : Modifier) :
    addModifierDefault [] m = [m]
    ∧ (∀ (l : List Modifier) (x : Modifier),
        addModifierDefault (l ++ [x]) m = l ++ m :: [x]) := by
  constructor
  · rfl
  · intro l x
    simp only [addModifierDefault, addModifier, pyInsert, List.length_append,
      List.length_cons, List.length_nil]
    rw [if_pos (by norm_num)]
    have hpos : (max (((l.length + (0 + 1) : ℕ) : ℤ) + (-1)) 0).toNat = l.length := by
      omega
    rw [hpos, List.take_left, List.drop_left]

/- ## Background assignment and cycle prevention (`Image.bg` setter) -/

/-- The dynamic class of an image object: `Image`, or its subclasses
`Strip` and `Animation`. -/
inductive NodeKind where
  | image
  | strip
  | animation
deriving DecidableEq, Repr

/-- A stored background reference (`Image._bg`): another image object
(identified by heap id) or a plain numpy color array. -/
inductive BgRef where
  | node : ℕ → BgRef
  | arr : List Pixel → BgRef
deriving DecidableEq, Repr

/-- An image object as seen by the background-assignment logic: its
class, its pixel count and its current `_bg`.  (Buffer, opacity and
modifiers play no part in `Image.bg` or `Image.bg_stack` and are
embedded separately above.) -/
structure HNode where
  kind : NodeKind
  len : ℕ
  bg : BgRef
deriving DecidableEq, Repr

/-- The object heap; object identity (Python `is`) is the list index. -/
def Heap : Type := List HNode

def emptyNode : HNode := ⟨.image, 0, .arr []⟩

/-- The `_bg` of heap node `i`. -/
def Heap.bgOf (h : Heap) (i : ℕ) : BgRef := (List.getD h i emptyNode).bg

/-- The class of heap node `i`. -/
def Heap.kindOf (h : Heap) (i : ℕ) : NodeKind := (List.getD h i emptyNode).kind

def NodeKind.isStrip : NodeKind → Bool
  | .strip => true
  | _ => false

/-- Embeds `Image.bg_stack()` restricted to its image elements: the node
itself followed by the image nodes of its background chain.  (The
Python method also appends the terminal numpy array, which is neither
`self` nor a `Strip`, so it cannot trip either check of the `bg`
setter.)  The fuel bounds the recursion, which in Python terminates
exactly when the chain is acyclic. -/
def bgStackIds (h : Heap) : ℕ → ℕ → List ℕ
  | 0, _ => []
  | fuel + 1, i =>
      i :: (match h.bgOf i with
            | .node j => bgStackIds h fuel j
            | .arr _ => [])

/-- The image nodes of `candidate.bg_stack()` as walked by the `bg`
setter; fuel `h.length + 1` suffices on any acyclic heap. -/
def Heap.bgStack (h : Heap) (i : ℕ) : List ℕ := bgStackIds h (h.length + 1) i

/-- The chain from `i` reaches a static array within `fuel` steps, so
Python's `bg_stack()` recursion terminates. -/
def chainTerminates (h : Heap) : ℕ → ℕ → Bool
  | 0, _ => false
  | fuel + 1, i =>
      match h.bgOf i with
      | .arr _ => true
      | .node j => chainTerminates h fuel j

/-- A value assigned to the `bg` property: another image object, or any
non-`Image` value (a numpy color array — the setter stores it without
further checks). -/
inductive BgCand where
  | img : ℕ → BgCand
  | arr : List Pixel → BgCand

/-- Error raised during background assignment or construction. -/
inductive BgErr where
  | cycle
  | stripInBg
  | shape
deriving DecidableEq, Repr

/-- Replace the `_bg` field of node `i`. -/
def Heap.setBgRef (h : Heap) (i : ℕ) (r : BgRef) : Heap :=
  List.set h i { List.getD h i emptyNode with bg := r }

/-- The `Image.bg` setter: for an `Image` candidate, walk
`candidate.bg_stack()`; raise the cycle error if `self` occurs anywhere
in the walk, else raise the strip error if any walked node is a
`Strip`; on success (and always, for a non-`Image` candidate) store the
candidate in `self._bg`.  Returns the raised error, if any, together
with the resulting heap. -/
def Image.setBg (h : Heap) (self : ℕ) (cand : BgCand) : Option BgErr × Heap :=
  match cand with
  | .img c =>
      if self ∈ h.bgStack c then (some .cycle, h)
      else if (h.bgStack c).any (fun j => (h.kindOf j).isStrip) then (some .stripInBg, h)
      else (none, h.setBgRef self (.node c))
  | .arr cs => (none, h.setBgRef self (.arr cs))

theorem isStrip_iff (k : NodeKind) : k.isStrip = true ↔ k = .strip := by
  cases k <;> simp [NodeKind.isStrip]

/-- C2: assigning an `Image` candidate walks the candidate's own
background chain (which starts with the candidate itself); it fails
with the cycle error when the assignee occurs in that walk, fails with
the invalid-background error when (no cycle and) a `Strip` occurs in
the walk — in both cases returning the heap unchanged, so the previous
background survives — and otherwise succeeds, changing exactly the
assignee's `_bg` field. -/
theorem setBg_spec (h : Heap) (self c : ℕ)
    (_hterm : chainTerminates h (h.length + 1) c = true) :
    (c ∈ h.bgStack c)
    ∧ (self ∈ h.bgStack c → Image.setBg h self (.img c) = (some .cycle, h))
    ∧ (self ∉ h.bgStack c → (∃ j ∈ h.bgStack c, h.kindOf j = .strip) →
        Image.setBg h self (.img c) = (some .stripInBg, h))
    ∧ (self ∉ h.bgStack c → (∀ j ∈ h.bgStack c, h.kindOf j ≠ .strip) →
        Image.setBg h self (.img c) = (none, h.setBgRef self (.node c))
        ∧ (self < h.length → (h.setBgRef self (.node c)).bgOf self = .node c)
        ∧ (∀ j : ℕ, j ≠ self →
            (h.setBgRef self (.node c)).bgOf j = h.bgOf j
            ∧ (h.setBgRef self (.node c)).kindOf j = h.kindOf j)) := by
  refine ⟨?_, ?_, ?_, ?_⟩
  · simp [Heap.bgStack, bgStackIds]
  · intro hmem
    simp [Image.setBg, if_pos hmem]
  · intro hnm hex
    have hany : (h.bgStack c).any (fun j => (h.kindOf j).isStrip) = true := by
      rw [List.any_eq_true]
      obtain ⟨j, hj, hk⟩ := hex
      exact ⟨j, hj, (isStrip_iff _).mpr hk⟩
    simp [Image.setBg, if_neg hnm, hany]
  · intro hnm hall
    have hany : ¬ ((h.bgStack c).any (fun j => (h.kindOf j).isStrip) = true) := by
      rw [List.any_eq_true]
      rintro ⟨j, hj, hk⟩
      exact hall j hj ((isStrip_iff _).mp hk)
    refine ⟨by simp [Image.setBg, if_neg hnm, hany], fun hlt => ?_, fun j hj => ?_⟩
    · rw [Heap.setBgRef, Heap.bgOf, list_getD_set_self _ _ _ hlt]
    · constructor
      · rw [Heap.setBgRef, Heap.bgOf, Heap.bgOf, list_getD_set_ne _ _ _ (fun e => hj e.symm)]
      · rw [Heap.setBgRef, Heap.kindOf, Heap.kindOf, list_getD_set_ne _ _ _ (fun e => hj e.symm)]

/-- Witness for C2 on the three-node heap
`[image # 0 (static bg), image # 1 (bg = # 0), strip # 2]`:
assigning node 1 (whose chain is `[1, 0]`) to node 0 cycles; assigning
the strip to node 1 fails with the invalid-background error; assigning
node 0 to node 1 succeeds. -/
theorem setBg_spec_witness :
    Image.setBg [⟨.image, 3, .arr []⟩, ⟨.image, 3, .node 0⟩, ⟨.strip, 3, .arr []⟩]
        0 (.img 1)
      = (some .cycle, [⟨.image, 3, .arr []⟩, ⟨.image, 3, .node 0⟩, ⟨.strip, 3, .arr []⟩])
    ∧ Image.setBg [⟨.image, 3, .arr []⟩, ⟨.image, 3, .node 0⟩, ⟨.strip, 3, .arr []⟩]
        1 (.img 2)
      = (some .stripInBg,
          [⟨.image, 3, .arr []⟩, ⟨.image, 3, .node 0⟩, ⟨.strip, 3, .arr []⟩])
    ∧ Image.setBg [⟨.image, 3, .arr []⟩, ⟨.image, 3, .node 0⟩, ⟨.strip, 3, .arr []⟩]
        1 (.img 0)
      = (none, Heap.setBgRef
          ([⟨.image, 3, .arr []⟩, ⟨.image, 3, .node 0⟩, ⟨.strip, 3, .arr []⟩] : Heap)
          1 (.node 0)) := by
  refine ⟨?_, ?_, ?_⟩
  · exact (setBg_spec _ 0 1 (by decide)).2.1 (by decide)
  · exact (setBg_spec _ 1 2 (by decide)).2.2.1 (by decide) ⟨2, by decide, by decide⟩
  · exact ((setBg_spec _ 1 0 (by decide)).2.2.2 (by decide) (by decide)).1

/- ## Background validation at construction time (`Image.__new__`) -/

/-- The `bg` argument of `Image.__new__`: an existing `Image` object, a
single color (`is_color_value`), or a color sequence (`is_img_data`). -/
inductive NewBg where
  | img : ℕ → NewBg
  | color : Pixel → NewBg
  | arr : List Pixel → NewBg

/-- The background part of `Image.__new__` for a new image of `n`
pixels: an `Image` candidate must satisfy `assert len(bg) == obj.n` and
then passes through the `bg` setter — the cycle check is vacuous there
because the freshly created object cannot occur in any existing chain,
but the `Strip` check still applies; an `is_color_value` candidate is
broadcast with `tile(array(bg), (n, 1))`; an `is_img_data` candidate
must satisfy the same length assert and is stored as an array.  Returns
the `_bg` the new object receives, or the raised error. -/
def Image.newBg (h : Heap) (n : ℕ) (cand : NewBg) : Except BgErr BgRef :=
  match cand with
  | .img c =>
      if (List.getD h c emptyNode).len ≠ n then .error .shape
      else if (h.bgStack c).any (fun j => (h.kindOf j).isStrip) then .error .stripInBg
      else .ok (.node c)
  | .color px => .ok (.arr (List.replicate n px))
  | .arr cs =>
      if cs.length ≠ n then .error .shape
      else .ok (.arr cs)

/-- C8 counterexample: directly assigning a length-5 color array as the
background of a length-3 node through the `bg` property succeeds and
replaces the background — no shape condition is raised at assignment
time, because the setter validates only `Image` candidates. -/
theorem bg_setter_skips_shape_check :
    Image.setBg [⟨.image, 3, .arr []⟩] 0 (.arr (List.replicate 5 pxZero))
      = (none, [⟨.image, 3, .arr (List.replicate 5 pxZero)⟩])
    ∧ (List.replicate 5 pxZero).length ≠ 3 := by
  constructor
  · rfl
  · decide

/-- C8 amended: length validation of non-`Image` backgrounds happens
only in `Image.__new__`: there a single color is broadcast to length
`n` and a color sequence of any other length fails with the shape
assertion; the `bg` property setter stores any non-`Image` candidate
unchecked, so a later direct assignment with mismatched length
succeeds. -/
theorem bg_shape_validation_spec (h : Heap) (n : ℕ) :
    (∀ px : Pixel, Image.newBg h n (.color px) = .ok (.arr (List.replicate n px)))
    ∧ (∀ cs : List Pixel, cs.length = n → Image.newBg h n (.arr cs) = .ok (.arr cs))
    ∧ (∀ cs : List Pixel, cs.length ≠ n → Image.newBg h n (.arr cs) = .error .shape)
    ∧ (∀ (self : ℕ) (cs : List Pixel),
        Image.setBg h self (.arr cs) = (none, h.setBgRef self (.arr cs))) := by
  refine ⟨fun px => rfl, fun cs hcs => ?_, fun cs hcs => ?_, fun self cs => rfl⟩
  · simp [Image.newBg, hcs]
  · simp [Image.newBg, hcs]

/-- Witness for C8 amended at `n = 3`: broadcast of a single color,
acceptance of a length-3 array, rejection of a length-5 array. -/
theorem bg_shape_validation_spec_witness :
    Image.newBg [] 3 (.color ⟨9, 9, 9⟩)
      = .ok (.arr [⟨9, 9, 9⟩, ⟨9, 9, 9⟩, ⟨9, 9, 9⟩])
    ∧ Image.newBg [] 3 (.arr (List.replicate 3 pxZero))
      = .ok (.arr (List.replicate 3 pxZero))
    ∧ Image.newBg [] 3 (.arr (List.replicate 5 pxZero)) = .error .shape := by
  refine ⟨?_, ?_, ?_⟩
  · have h := (bg_shape_validation_spec [] 3).1 ⟨9, 9, 9⟩
    rw [h, List.replicate]
    rfl
  · exact (bg_shape_validation_spec [] 3).2.1 (List.replicate 3 pxZero) (by decide)
  · exact (bg_shape_validation_spec [] 3).2.2.1 (List.replicate 5 pxZero) (by decide)

/- ## Frame advance of an `Animation` (`Animation.__next_frame__`) -/

/-- The state of an `Animation` that `__next_frame__` touches on the
node itself: the pixel buffer, the opacity array, the `playback` flag
and the remaining frames of the `visual` generator (a lazy sequence
with exhaustion; a produced frame contributes its buffer and opacity).
The recursive `self.bg.__next_frame__()` call at the end of the method
mutates background objects only, never these fields of the node
itself. -/
structure AnimState where
  buf : List Pixel
  opa : List ℚ
  playback : Bool
  visual : List PixData
deriving DecidableEq, Repr

/-- The self-update of `Animation.__next_frame__`: when `playback` is
set, pull `next(self.visual)`; on success copy the frame's opacity and
buffer over the node's own (`self.opa = frame.opa; self[:] =
frame[:]`); on `StopIteration` call `set_playback(False)` and change
nothing else. -/
def Animation.nextFrameSelf (a : AnimState) : AnimState :=
  if a.playback then
    match a.visual with
    | frame :: rest => { a with opa := frame.opa, buf := frame.buf, visual := rest }
    | [] => { a with playback := false }
  else a

theorem nextFrameSelf_stopped (a : AnimState) (h : a.playback = false) :
    Animation.nextFrameSelf a = a := by
  simp [Animation.nextFrameSelf, h]

/-- C9: when the producer is exhausted during an advance, the animation
transitions to the stopped state with buffer and opacity unchanged, and
every further advance (without an explicit resume) is the identity on
its state. -/
theorem animation_stop_spec (a : AnimState) (hplay : a.playback = true)
    (hexh : a.visual = []) :
    (Animation.nextFrameSelf a).playback = false
    ∧ (Animation.nextFrameSelf a).buf = a.buf
    ∧ (Animation.nextFrameSelf a).opa = a.opa
    ∧ (∀ k : ℕ, Animation.nextFrameSelf^[k] (Animation.nextFrameSelf a)
        = Animation.nextFrameSelf a) := by
  have heval : Animation.nextFrameSelf a = { a with playback := false } := by
    simp [Animation.nextFrameSelf, hplay, hexh]
  refine ⟨by rw [heval], by rw [heval], by rw [heval], fun k => ?_⟩
  exact Function.iterate_fixed (nextFrameSelf_stopped _ (by rw [heval])) k

/-- Witness for C9: a playing animation with an exhausted producer
stops and keeps its content across three further advances. -/
theorem animation_stop_spec_witness :
    Animation.nextFrameSelf ⟨[⟨7, 7, 7⟩], [1], true, []⟩ = ⟨[⟨7, 7, 7⟩], [1], false, []⟩
    ∧ Animation.nextFrameSelf^[3]
        (Animation.nextFrameSelf ⟨[⟨7, 7, 7⟩], [1], true, []⟩)
      = Animation.nextFrameSelf ⟨[⟨7, 7, 7⟩], [1], true, []⟩ := by
  have h := animation_stop_spec ⟨[⟨7, 7, 7⟩], [1], true, []⟩ rfl rfl
  exact ⟨rfl, h.2.2.2 3⟩

/- ## The `fill` and `set` helpers (`Image.fill`, `Image.set`) -/

/-- The `color` / `col` argument of the helpers as the type checker in
`lsd.typing.is_color_value` sees it: either omitted (`None`) or an
iterable of numeric channel values of some length. -/
inductive PyColorArg where
  | omitted
  | vals : List ℚ → PyColorArg

/-- Embeds `lsd.typing.is_color_value`: `len(obj)` must be 3 and every element
numeric; `len(None)` raises `TypeError`, which the function catches and
turns into `False`.  (Elements are numeric by construction here.) -/
def is_color_value : PyColorArg → Bool
  | .omitted => false
  | .vals xs => xs.length == 3

/-- Python `array(color)` for a validated 3-element color argument. -/
def pixelOfVals (xs : List ℚ) : Pixel := ⟨xs.getD 0 0, xs.getD 1 0, xs.getD 2 0⟩

/-- Embeds `Image.fill(color=None, opa=None)`: first `assert
is_color_value(color)` (the second assert, `isinstance(opa, Number |
None)`, always holds for the embedded argument type); then `self[:] =
array(color)` if a color was given and `self.opa[:] = clip(opa, 0., 1.)`
if an opacity was given. -/
def Image.fill (st : PixData) (color : PyColorArg) (opa : Option ℚ) :
    Except String PixData :=
  if ¬ is_color_value color then .error "Expected an RGB color value"
  else
    let st1 : PixData :=
      match color with
      | .vals xs => { st with buf := List.replicate st.buf.length (pixelOfVals xs) }
      | .omitted => st
    match opa with
    | some o => .ok { st1 with opa := List.replicate st1.opa.length (rclip o 0 1) }
    | none => .ok st1

/-- Embeds `Image.set(idx, col=None, opa=None)`: same asserts as `fill`, then
`self[idx] = array(col)` if a color was given and `self.opa[idx] =
clip(opa, 0., 1.)` if an opacity was given. -/
def Image.set (st : PixData) (idx : ℕ) (col : PyColorArg) (opa : Option ℚ) :
    Except String PixData :=
  if ¬ is_color_value col then .error "Expected an RGB color value"
  else
    let st1 : PixData :=
      match col with
      | .vals xs => { st with buf := st.buf.set idx (pixelOfVals xs) }
      | .omitted => st
    match opa with
    | some o => .ok { st1 with opa := st1.opa.set idx (rclip o 0 1) }
    | none => .ok st1

/-- C10: `fill` and `set` reject an omitted color with the assertion
error before touching any state (so an opacity-only update through the
helpers never succeeds and the buffer and opacity stay as they were);
with a valid color and an opacity they store the color and the opacity
clamped to `[0, 1]` — the stored opacity equals the given one exactly
when it already lies in the range. -/
theorem fill_set_require_color (st : PixData) (idx : ℕ) (o : ℚ) :
    Image.fill st .omitted (some o) = .error "Expected an RGB color value"
    ∧ Image.set st idx .omitted (some o) = .error "Expected an RGB color value"
    ∧ (∀ xs : List ℚ, xs.length = 3 →
        Image.fill st (.vals xs) (some o)
          = .ok ⟨List.replicate st.buf.length (pixelOfVals xs),
              List.replicate st.opa.length (rclip o 0 1)⟩)
    ∧ (∀ xs : List ℚ, xs.length = 3 →
        Image.set st idx (.vals xs) (some o)
          = .ok ⟨st.buf.set idx (pixelOfVals xs), st.opa.set idx (rclip o 0 1)⟩)
    ∧ (0 ≤ rclip o 0 1 ∧ rclip o 0 1 ≤ 1)
    ∧ (0 ≤ o → o ≤ 1 → rclip o 0 1 = o) := by
  refine ⟨rfl, rfl, fun xs hxs => ?_, fun xs hxs => ?_, ?_, fun h0 h1 => ?_⟩
  · simp [Image.fill, is_color_value, hxs]
  · simp [Image.set, is_color_value, hxs]
  · exact ⟨le_min (le_max_right o 0) zero_le_one, min_le_right _ 1⟩
  · rw [rclip, max_eq_left h0, min_eq_left h1]

/-- Witness for C10: on a one-pixel image, an opacity-only `fill` fails
with the assertion, and `fill([1,2,3], opa=7/4)` stores the color with
the opacity clamped to `1`. -/
theorem fill_set_require_color_witness :
    Image.fill ⟨[pxZero], [1/2]⟩ .omitted (some (3/4))
      = .error "Expected an RGB color value"
    ∧ Image.fill ⟨[pxZero], [1/2]⟩ (.vals [1, 2, 3]) (some (7/4))
      = .ok ⟨[⟨1, 2, 3⟩], [1]⟩ := by
  have h := fill_set_require_color ⟨[pxZero], [1/2]⟩ 0 (3/4)
  have h2 := fill_set_require_color ⟨[pxZero], [1/2]⟩ 0 (7/4)
  refine ⟨h.1, ?_⟩
  rw [h2.2.2.1 [1, 2, 3] rfl]
  norm_num [pixelOfVals, rclip, List.getD, List.replicate]
